import Mathlib

/-!
# Verification of the depgraph core (graph assembly, diff engine, extractors)

Shallow embedding of the depgraph repository's core data model and algorithms:
the graph data model (`src/graph.ts`), graph assembly (`filterAndDedupe` and
`scanDirectory` in `src/parse.ts`), the diff engine (`src/diff.ts`), and the
Go and Swift language extractors (`src/languages/go.ts`, `src/languages/swift.ts`).
-/

namespace Depgraph

/-- Node kinds, from the `GraphNode.kind` union type in `src/graph.ts`:
`"class" | "interface" | "protocol" | "enum" | "type_alias"`. -/
inductive NodeKind where
  | class'
  | interface
  | protocol
  | enum
  | type_alias
  deriving DecidableEq, Repr

/-- The string a `NodeKind` denotes in the TypeScript source (the union members
are string literals). -/
def NodeKind.str : NodeKind → String
  | .class' => "class"
  | .interface => "interface"
  | .protocol => "protocol"
  | .enum => "enum"
  | .type_alias => "type_alias"

/-- Edge kinds, from the `GraphEdge.kind` union type in `src/graph.ts`:
`"extends" | "implements" | "field_type" | "method_param" | "method_return" | "import"`. -/
inductive EdgeKind where
  | extends'
  | implements
  | field_type
  | method_param
  | method_return
  | import'
  deriving DecidableEq, Repr

/-- The string an `EdgeKind` denotes in the TypeScript source. -/
def EdgeKind.str : EdgeKind → String
  | .extends' => "extends"
  | .implements => "implements"
  | .field_type => "field_type"
  | .method_param => "method_param"
  | .method_return => "method_return"
  | .import' => "import"

/-- Model of `GraphNode` from `src/graph.ts`: a declared type. -/
structure GraphNode where
  name : String
  kind : NodeKind
  file : String
  line : Nat
  deriving DecidableEq, Repr

/-- Model of `GraphEdge` from `src/graph.ts`: a directed, typed relationship between two
node names (`from` is a Lean keyword, hence `from'`). -/
structure GraphEdge where
  from' : String
  to' : String
  kind : EdgeKind
  deriving DecidableEq, Repr

/-- Model of `DependencyGraph` from `src/graph.ts`. `commitSha` is optional in the
source (`commitSha?: string`). -/
structure DependencyGraph where
  nodes : List GraphNode
  edges : List GraphEdge
  scannedAt : String
  commitSha : Option String
  deriving DecidableEq, Repr

/-- Model of `nodeKey` from `src/graph.ts`: `` `${node.name}:${node.kind}` ``. -/
def nodeKey (node : GraphNode) : String :=
  node.name ++ ":" ++ node.kind.str

/-- Model of `edgeKey` from `src/graph.ts`: `` `${edge.from}->${edge.to}:${edge.kind}` ``. -/
def edgeKey (edge : GraphEdge) : String :=
  edge.from' ++ "->" ++ edge.to' ++ ":" ++ edge.kind.str

/-! ## Graph assembly (`filterAndDedupe` in `src/parse.ts`)

`filterAndDedupe` deduplicates nodes by `name` (first occurrence wins, using a
`Map<string, GraphNode>` in insertion order), filters edges to those whose
endpoints are surviving node names and which are not self-references, then
deduplicates the surviving edges by `edgeKey` (first occurrence wins).  Finally
it stamps `scannedAt: new Date().toISOString()` and
`commitSha: commitSha ?? getCommitSha(dir)`.  The two ambient reads — the clock
and the `git rev-parse HEAD` result for the scanned directory — are made
explicit as a `ScanEnv` value. -/

/-- The ambient state `filterAndDedupe` reads besides its arguments: the
current clock (`new Date().toISOString()`) and the result of `getCommitSha`
(`git rev-parse HEAD` in the scanned directory, `undefined` if it fails). -/
structure ScanEnv where
  now : String
  gitSha : Option String
  deriving DecidableEq, Repr

/-- The node-deduplication loop of `filterAndDedupe`: keep a node iff its
`name` was not seen before (`if (!nodeMap.has(node.name)) nodeMap.set(...)`),
in input order (`Map` values enumerate in insertion order). -/
def dedupeNodes : List String → List GraphNode → List GraphNode
  | _, [] => []
  | seen, node :: rest =>
    if node.name ∈ seen then dedupeNodes seen rest
    else node :: dedupeNodes (node.name :: seen) rest

/-- The edge filter-and-dedup loop of `filterAndDedupe`: skip an edge unless
both endpoints are in `nodeNames`; skip self-references; then keep the edge
iff its `edgeKey` was not seen before. -/
def filterEdges (nodeNames : List String) : List String → List GraphEdge → List GraphEdge
  | _, [] => []
  | seenEdges, edge :: rest =>
    if edge.from' ∉ nodeNames ∨ edge.to' ∉ nodeNames then
      filterEdges nodeNames seenEdges rest
    else if edge.from' = edge.to' then
      filterEdges nodeNames seenEdges rest
    else if edgeKey edge ∈ seenEdges then
      filterEdges nodeNames seenEdges rest
    else
      edge :: filterEdges nodeNames (edgeKey edge :: seenEdges) rest

/-- Model of `filterAndDedupe` from `src/parse.ts`, with the ambient clock/git reads
passed explicitly as `env`. -/
def filterAndDedupe (allNodes : List GraphNode) (allEdges : List GraphEdge)
    (commitSha : Option String) (env : ScanEnv) : DependencyGraph :=
  let nodes := dedupeNodes [] allNodes
  let nodeNames := nodes.map (·.name)
  let edges := filterEdges nodeNames [] allEdges
  { nodes := nodes
    edges := edges
    scannedAt := env.now
    commitSha := match commitSha with
      | some sha => some sha
      | none => env.gitSha }

/-! ## The diff engine (`src/diff.ts`)

`diffGraphs` builds a JavaScript `Map` from each of the four collections
(`new Map(list.map(x => [key(x), x]))`) and then iterates the maps.  A JS
`Map` keeps keys in first-insertion order and, on re-insertion of an existing
key, keeps the position but replaces the value (last value wins).  `jsMap`
models this as an association list. -/

/-- One `map.set(k, v)` step on a JS `Map` modelled as an association list:
if the key is present, replace its value in place; otherwise append. -/
def mapSet {α : Type} (m : List (String × α)) (k : String) (v : α) :
    List (String × α) :=
  if m.any (fun p => p.1 = k) then
    m.map (fun p => if p.1 = k then (k, v) else p)
  else
    m ++ [(k, v)]

/-- Model of `new Map(list.map(x => [key(x), x]))`: insert every element in order. -/
def jsMapAux {α : Type} (key : α → String) :
    List (String × α) → List α → List (String × α)
  | m, [] => m
  | m, x :: rest => jsMapAux key (mapSet m (key x) x) rest

/-- The JS `Map` built by `diffGraphs` from a list, keyed by `key`. -/
def jsMap {α : Type} (key : α → String) (l : List α) : List (String × α) :=
  jsMapAux key [] l

/-- Model of `map.has(k)` on the modelled JS `Map`. -/
def mapHas {α : Type} (m : List (String × α)) (k : String) : Bool :=
  m.any (fun p => p.1 = k)

/-- Model of `GraphDiff` from `src/diff.ts`. -/
structure GraphDiff where
  addedNodes : List GraphNode
  removedNodes : List GraphNode
  addedEdges : List GraphEdge
  removedEdges : List GraphEdge
  deriving DecidableEq, Repr

/-- Model of `diffGraphs` from `src/diff.ts`: key the four collections by
`nodeKey`/`edgeKey`; added = keys in `after` missing from `before`, removed =
keys in `before` missing from `after`, iterating the maps in order. -/
def diffGraphs (before after : DependencyGraph) : GraphDiff :=
  let beforeNodes := jsMap nodeKey before.nodes
  let afterNodes := jsMap nodeKey after.nodes
  let beforeEdges := jsMap edgeKey before.edges
  let afterEdges := jsMap edgeKey after.edges
  { addedNodes :=
      (afterNodes.filter (fun p => ! mapHas beforeNodes p.1)).map (·.2)
    removedNodes :=
      (beforeNodes.filter (fun p => ! mapHas afterNodes p.1)).map (·.2)
    addedEdges :=
      (afterEdges.filter (fun p => ! mapHas beforeEdges p.1)).map (·.2)
    removedEdges :=
      (beforeEdges.filter (fun p => ! mapHas afterEdges p.1)).map (·.2) }

/-- Model of `isDiffEmpty` from `src/diff.ts`. -/
def isDiffEmpty (diff : GraphDiff) : Bool :=
  diff.addedNodes.length == 0 && diff.removedNodes.length == 0 &&
  diff.addedEdges.length == 0 && diff.removedEdges.length == 0

/-! ## The scan loop (`scanDirectory` in `src/parse.ts`)

`scanDirectory` iterates the enumerated files; per file it looks up a parser
by extension (`getParserForFile`, skipping unmatched files), then runs
`readFileSync` + the parser inside `try { ... } catch (err) { console.error
("Warning: Failed to parse " + relFile + ": " + err) }`.  The per-file outcome
of the external read-and-parse step is supplied as data: `hasParser` models
whether `getParserForFile` matched, and `result` models the tried
read-and-parse (`Except.error` is the caught exception, rendered as `err`). -/

/-- One enumerated file presented to the scan loop, with the outcome its
read-and-parse step would produce. -/
structure ScanFile where
  path : String
  hasParser : Bool
  result : Except String (List GraphNode × List GraphEdge)

/-- The warning line `scanDirectory` logs for a file whose read-or-parse step
threw (`Warning: Failed to parse ${relFile}: ${err}`). -/
def parseWarning (path err : String) : String :=
  "Warning: Failed to parse " ++ path ++ ": " ++ err

/-- The accumulation loop of `scanDirectory`: unmatched files are skipped,
successful files append their fragment to `allNodes`/`allEdges`, failing files
append a warning and nothing else; the loop always continues to the next
file.  Returns (allNodes, allEdges, warnings). -/
def scanAccum : List ScanFile → List GraphNode × List GraphEdge × List String
  | [] => ([], [], [])
  | file :: rest =>
    let r := scanAccum rest
    if file.hasParser then
      match file.result with
      | .ok (ns, es) => (ns ++ r.1, es ++ r.2.1, r.2.2)
      | .error err => (r.1, r.2.1, parseWarning file.path err :: r.2.2)
    else r

/-- Model of `scanDirectory` from `src/parse.ts` after the external file enumeration:
accumulate fragments over the files and assemble with `filterAndDedupe`
(no explicit commit sha is passed there).  Also returns the warnings. -/
def scanDirectory (files : List ScanFile) (env : ScanEnv) :
    DependencyGraph × List String :=
  let (allNodes, allEdges, warnings) := scanAccum files
  (filterAndDedupe allNodes allEdges none env, warnings)

/-! ## Syntax trees and the language extractors

The extractors receive tree-sitter syntax trees and walk them through a small
node interface: `node.type`, `node.text`, `node.isNamed`,
`node.startPosition.row`, `node.child(i)` / `node.childCount`, and
`node.childForFieldName(f)`.  `TSNode` models exactly that interface; the
field label a child carries in its parent is stored on the child. -/

/-- A tree-sitter syntax node as the extractors see it. -/
inductive TSNode where
  | mk (kind : String) (text : String) (named : Bool) (row : Nat)
      (field : Option String) (children : List TSNode)
  deriving Repr

/-- Accessor for `node.type`. -/
def TSNode.kind : TSNode → String
  | .mk k _ _ _ _ _ => k

/-- Accessor for `node.text`. -/
def TSNode.text : TSNode → String
  | .mk _ t _ _ _ _ => t

/-- Accessor for `node.isNamed`. -/
def TSNode.named : TSNode → Bool
  | .mk _ _ n _ _ _ => n

/-- Accessor for `node.startPosition.row` (0-based). -/
def TSNode.row : TSNode → Nat
  | .mk _ _ _ r _ _ => r

/-- The field label this node carries in its parent, if any. -/
def TSNode.field : TSNode → Option String
  | .mk _ _ _ _ f _ => f

/-- The children, in order (`node.child(0) .. node.child(childCount - 1)`). -/
def TSNode.children : TSNode → List TSNode
  | .mk _ _ _ _ _ cs => cs

/-- Accessor for `node.childForFieldName(f)`: the first child carrying field label `f`. -/
def TSNode.childForFieldName (n : TSNode) (f : String) : Option TSNode :=
  n.children.find? (fun c => c.field == some f)

/-! ### The Go extractor (`src/languages/go.ts`) -/

/-- Model of `BUILTIN_TYPES` from `src/languages/go.ts`: Go's built-in primitive type
names, excluded from edge emission. -/
def BUILTIN_TYPES : List String :=
  ["string", "int", "int8", "int16", "int32", "int64",
   "uint", "uint8", "uint16", "uint32", "uint64",
   "float32", "float64", "complex64", "complex128",
   "bool", "byte", "rune", "error", "any",
   "uintptr", "comparable"]

/-- Model of `isUserType` from `src/languages/go.ts`: `!BUILTIN_TYPES.has(name)`. -/
def isUserType (name : String) : Bool :=
  ! BUILTIN_TYPES.contains name

/-- Model of `extractTypeIdentifier` from `src/languages/go.ts`: the simple type name
directly denoted by a type node (`Foo`, `*Foo`, `[]Foo`, `[N]Foo`,
`map[K]V`, `pkg.Foo`), if any. -/
def goExtractTypeIdentifier (node : TSNode) : Option String :=
  if node.kind == "type_identifier" then some node.text
  else if node.kind == "pointer_type" then
    (node.children.find? (fun c => c.kind == "type_identifier")).map TSNode.text
  else if node.kind == "slice_type" || node.kind == "array_type" ||
      node.kind == "map_type" then
    (node.children.find? (fun c => c.kind == "type_identifier")).map TSNode.text
  else if node.kind == "qualified_type" then
    (node.childForFieldName "name").map TSNode.text
  else none

/-- Model of `extractAllTypeIdentifiers` from `src/languages/go.ts`: depth-first walk
collecting every directly-denoted simple type name, stopping descent where one
is found. -/
def goExtractAllTypeIdentifiers : TSNode → List String
  | n@(.mk _ _ _ _ _ cs) =>
    match goExtractTypeIdentifier n with
    | some id => [id]
    | none => cs.attach.flatMap (fun c => goExtractAllTypeIdentifiers c.1)
termination_by n => sizeOf n
decreasing_by
  have := List.sizeOf_lt_of_mem c.2
  simp only [TSNode.mk.sizeOf_spec]
  omega

/-- Model of `findChild` from `src/languages/go.ts`: first child of a given node type. -/
def goFindChild (node : TSNode) (t : String) : Option TSNode :=
  node.children.find? (fun c => c.kind == t)

/-- Builds one edge of the given kind from `owner` to each extracted user
type, as the `for (const id of ...) if (isUserType(id)) edges.push(...)`
loops in `src/languages/go.ts` do. -/
def goUserTypeEdges (owner : String) (k : EdgeKind) (ids : List String) :
    List GraphEdge :=
  ((ids.filter (fun id => isUserType id)).map
    (fun id => { from' := owner, to' := id, kind := k }))

/-- Model of `extractMethodEdges` from `src/languages/go.ts`: `method_param` edges for
each `parameter_declaration`'s type, then `method_return` edges for the
`result` field. -/
def goExtractMethodEdges (method : TSNode) (ownerName : String) :
    List GraphEdge :=
  (match method.childForFieldName "parameters" with
    | some params =>
      params.children.flatMap (fun param =>
        if param.kind == "parameter_declaration" then
          match param.childForFieldName "type" with
          | some paramType =>
            goUserTypeEdges ownerName .method_param
              (goExtractAllTypeIdentifiers paramType)
          | none => []
        else [])
    | none => []) ++
  (match method.childForFieldName "result" with
    | some result =>
      goUserTypeEdges ownerName .method_return
        (goExtractAllTypeIdentifiers result)
    | none => [])

/-- The edges one `field_declaration` of a struct contributes, per the field
loop of `extractStruct` in `src/languages/go.ts`: embedded types become
`extends` edges, named fields become `field_type` edges, all guarded by
`isUserType`. -/
def goStructFieldEdges (nameText : String) (field : TSNode) :
    List GraphEdge :=
  if field.kind == "field_declaration" then
    match field.childForFieldName "name", field.childForFieldName "type" with
    | none, some typeChild =>
      (match goExtractTypeIdentifier typeChild with
        | some id =>
          if isUserType id then
            [{ from' := nameText, to' := id, kind := .extends' }]
          else []
        | none => [])
    | none, none =>
      field.children.filterMap (fun c =>
        if c.kind == "type_identifier" && isUserType c.text then
          some { from' := nameText, to' := c.text, kind := .extends' }
        else none)
    | some _, some typeChild =>
      goUserTypeEdges nameText .field_type
        (goExtractAllTypeIdentifiers typeChild)
    | some _, none => []
  else []

/-- Model of `extractStruct` from `src/languages/go.ts`: one `class` node for the
struct, then the per-field edges over the field list (resolved through the
`fields` field or a `field_declaration_list` child). -/
def goExtractStruct (nameText : String) (typeNode : TSNode) (filePath : String)
    (startRow : Nat) : List GraphNode × List GraphEdge :=
  ([{ name := nameText, kind := .class', file := filePath,
      line := startRow + 1 }],
    match
      (match typeNode.childForFieldName "fields" with
        | some fl => some fl
        | none => goFindChild typeNode "field_declaration_list") with
    | none => []
    | some fl => fl.children.flatMap (goStructFieldEdges nameText))

/-- The edges one child of an `interface_type` contributes, per the child
loop of `extractInterface` in `src/languages/go.ts`. -/
def goInterfaceChildEdges (nameText : String) (child : TSNode) :
    List GraphEdge :=
  (if child.kind == "constraint_elem" then
    child.children.filterMap (fun c =>
      if c.kind == "type_identifier" && isUserType c.text then
        some { from' := nameText, to' := c.text, kind := .extends' }
      else none)
  else []) ++
  (if child.kind == "method_spec" then
    goExtractMethodEdges child nameText
  else [])

/-- Model of `extractInterface` from `src/languages/go.ts`: one `interface` node,
`extends` edges for embedded interfaces (`constraint_elem`), method edges for
each `method_spec`. -/
def goExtractInterface (nameText : String) (typeNode : TSNode)
    (filePath : String) (startRow : Nat) : List GraphNode × List GraphEdge :=
  ([{ name := nameText, kind := .interface, file := filePath,
      line := startRow + 1 }],
    typeNode.children.flatMap (goInterfaceChildEdges nameText))

/-- Model of `getReceiverType` from `src/languages/go.ts`: the type name in the first
`parameter_list` (the receiver) of a `method_declaration`. -/
def getReceiverType (method : TSNode) : Option String :=
  match method.children.find? (fun c => c.kind == "parameter_list") with
  | none => none
  | some pl =>
    match pl.children.find? (fun p =>
        p.kind == "parameter_declaration" &&
        (p.childForFieldName "type").isSome) with
    | none => none
    | some p =>
      match p.childForFieldName "type" with
      | some t => goExtractTypeIdentifier t
      | none => none

/-- The fragment one `type_spec` contributes, per the spec loop of
`parseSource` in `src/languages/go.ts`. -/
def goTypeSpecResult (filePath : String) (spec : TSNode) :
    List GraphNode × List GraphEdge :=
  if spec.kind == "type_spec" then
    match spec.childForFieldName "name", spec.childForFieldName "type" with
    | some nameNode, some typeNode =>
      if typeNode.kind == "struct_type" then
        goExtractStruct nameNode.text typeNode filePath spec.row
      else if typeNode.kind == "interface_type" then
        goExtractInterface nameNode.text typeNode filePath spec.row
      else ([], [])
    | _, _ => ([], [])
  else ([], [])

/-- The fragment one top-level child of the root contributes, per the root
loop of `parseSource` in `src/languages/go.ts`. -/
def goTopLevelResult (filePath : String) (child : TSNode) :
    List GraphNode × List GraphEdge :=
  if child.kind == "type_declaration" then
    ((child.children.map (goTypeSpecResult filePath)).flatMap Prod.fst,
     (child.children.map (goTypeSpecResult filePath)).flatMap Prod.snd)
  else if child.kind == "method_declaration" then
    match getReceiverType child with
    | some receiverType => ([], goExtractMethodEdges child receiverType)
    | none => ([], [])
  else ([], [])

/-- Model of `parseSource` from `src/languages/go.ts`: walk the root's children, turn
each `type_spec` holding a `struct_type` or `interface_type` into nodes and
edges, and attach method edges to each `method_declaration`'s receiver. -/
def goParseSource (root : TSNode) (filePath : String) :
    List GraphNode × List GraphEdge :=
  ((root.children.map (goTopLevelResult filePath)).flatMap Prod.fst,
   (root.children.map (goTopLevelResult filePath)).flatMap Prod.snd)

/-! ### The Swift extractor (`src/languages/swift.ts`)

Unlike the Go extractor, the Swift extractor applies no built-in-type
allow-list anywhere: every extracted type identifier becomes an edge. -/

/-- Model of `extractTypeIdentifiers` from `src/languages/swift.ts`: collect the simple
name of every `user_type`/`type_identifier`, descending into generic
`type_arguments`. -/
def swiftExtractTypeIdentifiers : TSNode → List String
  | n@(.mk _ _ _ _ _ cs) =>
    if n.kind == "user_type" || n.kind == "type_identifier" then
      (match n.childForFieldName "name" with
        | some nameChild => [nameChild.text]
        | none =>
          if n.kind == "type_identifier" then [n.text]
          else
            match cs.find? (fun c => c.kind == "type_identifier") with
            | some c => [c.text]
            | none => []) ++
      cs.attach.flatMap (fun c =>
        if c.1.kind == "type_arguments" then swiftExtractTypeIdentifiers c.1
        else [])
    else
      cs.attach.flatMap (fun c => swiftExtractTypeIdentifiers c.1)
termination_by n => sizeOf n
decreasing_by
  all_goals
    have := List.sizeOf_lt_of_mem c.2
    simp only [TSNode.mk.sizeOf_spec]
    omega

/-- Model of `extractBodyMembers` from `src/languages/swift.ts`: `field_type` edges
from property/variable type annotations (including `pattern_binding`s),
`method_return` and `method_param` edges from function declarations.  No
built-in filter is applied. -/
def swiftExtractBodyMembers (body : TSNode) (ownerName : String) :
    List GraphEdge :=
  body.children.flatMap (fun member =>
    (if member.kind == "property_declaration" ||
        member.kind == "variable_declaration" then
      (match member.childForFieldName "type" with
        | some ta =>
          (swiftExtractTypeIdentifiers ta).map (fun t =>
            { from' := ownerName, to' := t, kind := .field_type })
        | none => []) ++
      member.children.flatMap (fun child =>
        if child.kind == "pattern_binding" then
          match child.childForFieldName "type" with
          | some ta =>
            (swiftExtractTypeIdentifiers ta).map (fun t =>
              { from' := ownerName, to' := t, kind := .field_type })
          | none => []
        else [])
    else []) ++
    (if member.kind == "function_declaration" then
      (match member.childForFieldName "return_type" with
        | some rt =>
          (swiftExtractTypeIdentifiers rt).map (fun t =>
            { from' := ownerName, to' := t, kind := .method_return })
        | none => []) ++
      (match member.childForFieldName "parameters" with
        | some params =>
          params.children.flatMap (fun param =>
            match param.childForFieldName "type" with
            | some pt =>
              (swiftExtractTypeIdentifiers pt).map (fun t =>
                { from' := ownerName, to' := t, kind := .method_param })
            | none => [])
        | none => [])
    else []))

/-- Model of `extractDeclaration` from `src/languages/swift.ts`: one node for the
declaration, `extends`/`implements` edges from the inheritance clause
(`extends` when the declaration is a protocol), and body-member edges. -/
def swiftExtractDeclaration (node : TSNode) (filePath : String)
    (declKind : NodeKind) : List GraphNode × List GraphEdge :=
  match node.childForFieldName "name" with
  | none => ([], [])
  | some nameNode =>
    let name := nameNode.text
    let nodes : List GraphNode :=
      [{ name := name, kind := declKind, file := filePath, line := node.row + 1 }]
    let edgeK : EdgeKind :=
      if declKind = .protocol then .extends' else .implements
    let inheritEdges :=
      node.children.flatMap (fun child =>
        if child.kind == "type_inheritance_clause" ||
            child.kind == "inheritance_specifier" then
          (swiftExtractTypeIdentifiers child).map (fun t =>
            { from' := name, to' := t, kind := edgeK })
        else [])
    let bodyEdges :=
      match node.childForFieldName "body" with
      | some body => swiftExtractBodyMembers body name
      | none => []
    (nodes, inheritEdges ++ bodyEdges)

/-- The recursive `walk` of `parseSource` in `src/languages/swift.ts`. -/
def swiftWalk (filePath : String) : TSNode → List GraphNode × List GraphEdge
  | n@(.mk _ _ _ _ _ cs) =>
    if n.kind == "class_declaration" then
      if cs.any (fun c => !c.named && c.text == "enum") then
        match n.childForFieldName "name" with
        | some nameNode =>
          ([{ name := nameNode.text, kind := .enum, file := filePath,
              line := n.row + 1 }], [])
        | none => ([], [])
      else swiftExtractDeclaration n filePath .class'
    else if n.kind == "protocol_declaration" then
      swiftExtractDeclaration n filePath .protocol
    else if n.kind == "enum_declaration" then
      match n.childForFieldName "name" with
      | some nameNode =>
        ([{ name := nameNode.text, kind := .enum, file := filePath,
            line := n.row + 1 }], [])
      | none => ([], [])
    else if n.kind == "extension_declaration" then
      match n.childForFieldName "name" with
      | some nameNode =>
        ([],
          cs.flatMap (fun child =>
            if child.kind == "type_inheritance_clause" ||
                child.kind == "inheritance_specifier" then
              (swiftExtractTypeIdentifiers child).map (fun t =>
                { from' := nameNode.text, to' := t, kind := .implements })
            else []))
      | none => ([], [])
    else
      let rs := cs.attach.map (fun c => swiftWalk filePath c.1)
      (rs.flatMap Prod.fst, rs.flatMap Prod.snd)
termination_by n => sizeOf n
decreasing_by
  have := List.sizeOf_lt_of_mem c.2
  simp only [TSNode.mk.sizeOf_spec]
  omega

/-- Model of `parseSource` from `src/languages/swift.ts`: walk the root. -/
def swiftParseSource (root : TSNode) (filePath : String) :
    List GraphNode × List GraphEdge :=
  swiftWalk filePath root

/-! ## Serialization (`serializeGraph` / `deserializeGraph` in `src/graph.ts`)

`serializeGraph` is `JSON.stringify(graph, null, 2)` and `deserializeGraph` is
`JSON.parse(json)`.  Both are modelled at the level of the JSON document they
exchange (the value tree `JSON.stringify` renders and `JSON.parse` recovers):
a graph serializes to the object
`{ nodes: [...], edges: [...], scannedAt: ..., commitSha?: ... }`, where an
`undefined` `commitSha` is omitted by `JSON.stringify`. -/

/-- A JSON document, as exchanged by `serializeGraph`/`deserializeGraph`. -/
inductive Json where
  | str (s : String)
  | num (n : Nat)
  | arr (elems : List Json)
  | obj (fields : List (String × Json))
  deriving Repr

/-- Field lookup in a JSON object (`parsed.name`). -/
def jsonGet (fields : List (String × Json)) (k : String) : Option Json :=
  (fields.find? (fun p => p.1 == k)).map (·.2)

/-- The JSON document of one `GraphNode`. -/
def nodeToJson (n : GraphNode) : Json :=
  .obj [("name", .str n.name), ("kind", .str n.kind.str),
        ("file", .str n.file), ("line", .num n.line)]

/-- The JSON document of one `GraphEdge`. -/
def edgeToJson (e : GraphEdge) : Json :=
  .obj [("from", .str e.from'), ("to", .str e.to'),
        ("kind", .str e.kind.str)]

/-- Model of `serializeGraph` from `src/graph.ts`, at the JSON-document level:
`JSON.stringify` renders the graph's own structure, omitting an `undefined`
`commitSha`. -/
def serializeGraph (graph : DependencyGraph) : Json :=
  .obj ([("nodes", .arr (graph.nodes.map nodeToJson)),
         ("edges", .arr (graph.edges.map edgeToJson)),
         ("scannedAt", .str graph.scannedAt)] ++
    (match graph.commitSha with
      | some sha => [("commitSha", Json.str sha)]
      | none => []))

/-- The inverse of `NodeKind.str`, used when reading a kind string back. -/
def NodeKind.ofStr (s : String) : Option NodeKind :=
  if s = "class" then some .class'
  else if s = "interface" then some .interface
  else if s = "protocol" then some .protocol
  else if s = "enum" then some .enum
  else if s = "type_alias" then some .type_alias
  else none

/-- The inverse of `EdgeKind.str`, used when reading a kind string back. -/
def EdgeKind.ofStr (s : String) : Option EdgeKind :=
  if s = "extends" then some .extends'
  else if s = "implements" then some .implements
  else if s = "field_type" then some .field_type
  else if s = "method_param" then some .method_param
  else if s = "method_return" then some .method_return
  else if s = "import" then some .import'
  else none

/-- Reading one node back from its JSON document. -/
def nodeFromJson : Json → Option GraphNode
  | .obj fields => do
    let .str name ← jsonGet fields "name" | none
    let .str kindStr ← jsonGet fields "kind" | none
    let kind ← NodeKind.ofStr kindStr
    let .str file ← jsonGet fields "file" | none
    let .num line ← jsonGet fields "line" | none
    some { name := name, kind := kind, file := file, line := line }
  | _ => none

/-- Reading one edge back from its JSON document. -/
def edgeFromJson : Json → Option GraphEdge
  | .obj fields => do
    let .str f ← jsonGet fields "from" | none
    let .str t ← jsonGet fields "to" | none
    let .str kindStr ← jsonGet fields "kind" | none
    let kind ← EdgeKind.ofStr kindStr
    some { from' := f, to' := t, kind := kind }
  | _ => none

/-- Model of `deserializeGraph` from `src/graph.ts`, at the JSON-document level:
`JSON.parse` recovers the object structure; a missing `commitSha` key reads
back as `undefined`. -/
def deserializeGraph : Json → Option DependencyGraph
  | .obj fields => do
    let .arr nodeDocs ← jsonGet fields "nodes" | none
    let nodes ← nodeDocs.mapM nodeFromJson
    let .arr edgeDocs ← jsonGet fields "edges" | none
    let edges ← edgeDocs.mapM edgeFromJson
    let .str scannedAt ← jsonGet fields "scannedAt" | none
    let commitSha : Option String :=
      match jsonGet fields "commitSha" with
      | some (.str sha) => some sha
      | _ => none
    some { nodes := nodes, edges := edges, scannedAt := scannedAt,
           commitSha := commitSha }
  | _ => none

/-! ## Helper lemmas about the assembler loops -/

/-- Every node the dedup loop keeps comes from the input. -/
theorem dedupeNodes_subset {seen : List String} {l : List GraphNode}
    {n : GraphNode} (h : n ∈ dedupeNodes seen l) : n ∈ l := by
  induction l generalizing seen with
  | nil => simp [dedupeNodes] at h
  | cons head rest ih =>
    simp only [dedupeNodes] at h
    by_cases hm : head.name ∈ seen
    · simp only [if_pos hm] at h
      exact List.mem_cons_of_mem _ (ih h)
    · simp only [if_neg hm, List.mem_cons] at h
      rcases h with h | h
      · exact h ▸ List.mem_cons_self _ _
      · exact List.mem_cons_of_mem _ (ih h)

/-- Every node the dedup loop keeps has a name outside `seen`. -/
theorem dedupeNodes_name_not_seen {seen : List String} {l : List GraphNode}
    {n : GraphNode} (h : n ∈ dedupeNodes seen l) : n.name ∉ seen := by
  induction l generalizing seen with
  | nil => simp [dedupeNodes] at h
  | cons head rest ih =>
    simp only [dedupeNodes] at h
    by_cases hm : head.name ∈ seen
    · simp only [if_pos hm] at h
      exact ih h
    · simp only [if_neg hm, List.mem_cons] at h
      rcases h with h | h
      · exact h ▸ hm
      · intro hn
        exact ih h (List.mem_cons_of_mem _ hn)

/-- The names surviving the dedup loop are exactly the input names outside
`seen`. -/
theorem dedupeNodes_names {seen : List String} {l : List GraphNode}
    {x : String} :
    x ∈ (dedupeNodes seen l).map (·.name) ↔
      x ∉ seen ∧ x ∈ l.map (·.name) := by
  induction l generalizing seen with
  | nil => simp [dedupeNodes]
  | cons head rest ih =>
    simp only [dedupeNodes]
    by_cases hm : head.name ∈ seen
    · simp only [if_pos hm, ih, List.map_cons, List.mem_cons]
      constructor
      · rintro ⟨hs, hr⟩
        exact ⟨hs, Or.inr hr⟩
      · rintro ⟨hs, h | hr⟩
        · exact absurd (h ▸ hm) hs
        · exact ⟨hs, hr⟩
    · simp only [if_neg hm, List.map_cons, List.mem_cons, ih]
      constructor
      · rintro (h | ⟨hs, hr⟩)
        · exact ⟨h ▸ hm, Or.inl h⟩
        · refine ⟨fun hx => hs (Or.inr hx), Or.inr hr⟩
      · rintro ⟨hs, h | hr⟩
        · exact Or.inl h
        · by_cases hx : x = head.name
          · exact Or.inl hx
          · refine Or.inr ⟨fun hc => ?_, hr⟩
            rcases hc with hc | hc
            · exact hx hc
            · exact hs hc

/-- The surviving names are pairwise distinct. -/
theorem dedupeNodes_names_nodup (seen : List String) (l : List GraphNode) :
    ((dedupeNodes seen l).map (·.name)).Nodup := by
  induction l generalizing seen with
  | nil => simp [dedupeNodes]
  | cons head rest ih =>
    simp only [dedupeNodes]
    by_cases hm : head.name ∈ seen
    · simpa [if_pos hm] using ih seen
    · simp only [if_neg hm, List.map_cons, List.nodup_cons]
      refine ⟨fun hc => ?_, ih _⟩
      rw [dedupeNodes_names] at hc
      exact hc.1 (List.mem_cons_self _ _)

/-- Every node the dedup loop keeps is the first input occurrence of its
name: the input splits as `l₁ ++ n :: l₂` with no `l₁` node sharing `n`'s
name. -/
theorem dedupeNodes_first_occurrence {seen : List String}
    {l : List GraphNode} {n : GraphNode} (h : n ∈ dedupeNodes seen l) :
    ∃ l₁ l₂, l = l₁ ++ n :: l₂ ∧ ∀ m ∈ l₁, m.name ≠ n.name := by
  induction l generalizing seen with
  | nil => simp [dedupeNodes] at h
  | cons head rest ih =>
    simp only [dedupeNodes] at h
    by_cases hm : head.name ∈ seen
    · simp only [if_pos hm] at h
      obtain ⟨l₁, l₂, hsplit, hne⟩ := ih h
      refine ⟨head :: l₁, l₂, by rw [hsplit]; rfl, ?_⟩
      intro m hmem
      rcases List.mem_cons.mp hmem with hmem | hmem
      · subst hmem
        intro hc
        exact dedupeNodes_name_not_seen h (hc ▸ hm)
      · exact hne m hmem
    · simp only [if_neg hm, List.mem_cons] at h
      rcases h with h | h
      · exact ⟨[], rest, by subst h; simp, by simp⟩
      · obtain ⟨l₁, l₂, hsplit, hne⟩ := ih h
        refine ⟨head :: l₁, l₂, by rw [hsplit]; rfl, ?_⟩
        intro m hmem
        rcases List.mem_cons.mp hmem with hmem | hmem
        · subst hmem
          intro hc
          exact dedupeNodes_name_not_seen h
            (hc ▸ List.mem_cons_self _ _)
        · exact hne m hmem

/-- A retained edge comes from the input, has both endpoints among
`nodeNames`, is no self-reference, and its key is outside `seen`. -/
theorem mem_filterEdges {nodeNames seen : List String} {l : List GraphEdge}
    {e : GraphEdge} (h : e ∈ filterEdges nodeNames seen l) :
    e ∈ l ∧ e.from' ∈ nodeNames ∧ e.to' ∈ nodeNames ∧ e.from' ≠ e.to' ∧
      edgeKey e ∉ seen := by
  induction l generalizing seen with
  | nil => simp [filterEdges] at h
  | cons head rest ih =>
    simp only [filterEdges] at h
    by_cases h1 : head.from' ∉ nodeNames ∨ head.to' ∉ nodeNames
    · simp only [if_pos h1] at h
      obtain ⟨hmem, hrest⟩ := ih h
      exact ⟨List.mem_cons_of_mem _ hmem, hrest⟩
    · simp only [if_neg h1] at h
      push_neg at h1
      by_cases h2 : head.from' = head.to'
      · simp only [if_pos h2] at h
        obtain ⟨hmem, hrest⟩ := ih h
        exact ⟨List.mem_cons_of_mem _ hmem, hrest⟩
      · simp only [if_neg h2] at h
        by_cases h3 : edgeKey head ∈ seen
        · simp only [if_pos h3] at h
          obtain ⟨hmem, hrest⟩ := ih h
          exact ⟨List.mem_cons_of_mem _ hmem, hrest⟩
        · simp only [if_neg h3, List.mem_cons] at h
          rcases h with h | h
          · subst h
            exact ⟨List.mem_cons_self _ _, h1.1, h1.2, h2, h3⟩
          · obtain ⟨hmem, hf, ht, hne, hkey⟩ := ih h
            refine ⟨List.mem_cons_of_mem _ hmem, hf, ht, hne, fun hc => ?_⟩
            exact hkey (List.mem_cons_of_mem _ hc)

/-- Conversely, a valid input edge is retained whenever its key is not yet
seen and no other input edge shares its key. -/
theorem filterEdges_complete {nodeNames seen : List String}
    {l : List GraphEdge} {e : GraphEdge} (hmem : e ∈ l)
    (hf : e.from' ∈ nodeNames) (ht : e.to' ∈ nodeNames)
    (hne : e.from' ≠ e.to') (hseen : edgeKey e ∉ seen)
    (huniq : ∀ x ∈ l, edgeKey x = edgeKey e → x = e) :
    e ∈ filterEdges nodeNames seen l := by
  induction l generalizing seen with
  | nil => simp at hmem
  | cons head rest ih =>
    simp only [filterEdges]
    rcases List.mem_cons.mp hmem with heq | hmem'
    · subst heq
      rw [if_neg (by push_neg; exact ⟨hf, ht⟩), if_neg hne, if_neg hseen]
      exact List.mem_cons_self _ _
    · have huniq' : ∀ x ∈ rest, edgeKey x = edgeKey e → x = e :=
        fun x hx => huniq x (List.mem_cons_of_mem _ hx)
      by_cases h1 : head.from' ∉ nodeNames ∨ head.to' ∉ nodeNames
      · rw [if_pos h1]
        exact ih hmem' hseen huniq'
      · rw [if_neg h1]
        by_cases h2 : head.from' = head.to'
        · rw [if_pos h2]
          exact ih hmem' hseen huniq'
        · rw [if_neg h2]
          by_cases h3 : edgeKey head ∈ seen
          · rw [if_pos h3]
            exact ih hmem' hseen huniq'
          · rw [if_neg h3]
            by_cases hhe : head = e
            · exact hhe ▸ List.mem_cons_self _ _
            · refine List.mem_cons_of_mem _ (ih hmem' ?_ huniq')
              intro hc
              rcases List.mem_cons.mp hc with hc | hc
              · exact hhe (huniq head (List.mem_cons_self _ _) hc.symm)
              · exact hseen hc

/-- Retained edge keys lie outside `seen` (restatement for reuse). -/
theorem filterEdges_key_not_seen {nodeNames seen : List String}
    {l : List GraphEdge} {e : GraphEdge}
    (h : e ∈ filterEdges nodeNames seen l) : edgeKey e ∉ seen :=
  (mem_filterEdges h).2.2.2.2

/-- The retained edges have pairwise-distinct keys. -/
theorem filterEdges_keys_nodup (nodeNames seen : List String)
    (l : List GraphEdge) :
    ((filterEdges nodeNames seen l).map edgeKey).Nodup := by
  induction l generalizing seen with
  | nil => simp [filterEdges]
  | cons head rest ih =>
    simp only [filterEdges]
    by_cases h1 : head.from' ∉ nodeNames ∨ head.to' ∉ nodeNames
    · simpa [if_pos h1] using ih seen
    · simp only [if_neg h1]
      by_cases h2 : head.from' = head.to'
      · simpa [if_pos h2] using ih seen
      · simp only [if_neg h2]
        by_cases h3 : edgeKey head ∈ seen
        · simpa [if_pos h3] using ih seen
        · simp only [if_neg h3, List.map_cons, List.nodup_cons]
          refine ⟨fun hc => ?_, ih _⟩
          obtain ⟨e, he, hkey⟩ := List.mem_map.mp hc
          exact filterEdges_key_not_seen he (hkey ▸ List.mem_cons_self _ _)

/-! ## Helper lemmas about the JS `Map` model used by `diffGraphs` -/

/-- An entry of `mapSet m k v` is either the inserted `(k, v)` or an entry of
`m`. -/
theorem mapSet_mem {α : Type} {m : List (String × α)} {k : String} {v : α}
    {p : String × α} (h : p ∈ mapSet m k v) : p = (k, v) ∨ p ∈ m := by
  unfold mapSet at h
  by_cases hk : m.any (fun p => p.1 = k)
  · simp only [if_pos hk, List.mem_map] at h
    obtain ⟨q, hq, heq⟩ := h
    by_cases hqk : q.1 = k
    · simp only [if_pos hqk] at heq
      exact Or.inl heq.symm
    · simp only [if_neg hqk] at heq
      exact Or.inr (heq ▸ hq)
  · simp only [if_neg hk, List.mem_append, List.mem_singleton] at h
    rcases h with h | h
    · exact Or.inr h
    · exact Or.inl h

/-- The inserted pair is always an entry of `mapSet m k v`. -/
theorem mapSet_mem_self {α : Type} (m : List (String × α)) (k : String)
    (v : α) : (k, v) ∈ mapSet m k v := by
  unfold mapSet
  by_cases hk : m.any (fun p => p.1 = k)
  · simp only [if_pos hk, List.mem_map]
    obtain ⟨q, hq, hqk⟩ := List.any_eq_true.mp hk
    exact ⟨q, hq, by simp [of_decide_eq_true hqk]⟩
  · simp [if_neg hk]

/-- Entries under other keys survive `mapSet`. -/
theorem mapSet_mem_of_ne {α : Type} {m : List (String × α)} {k : String}
    {v : α} {p : String × α} (hp : p ∈ m) (hne : p.1 ≠ k) :
    p ∈ mapSet m k v := by
  unfold mapSet
  by_cases hk : m.any (fun p => p.1 = k)
  · simp only [if_pos hk, List.mem_map]
    exact ⟨p, hp, by simp [if_neg hne]⟩
  · simp [if_neg hk, hp]

/-- The keys of `mapSet m k v`: unchanged when `k` is present, extended by
`k` otherwise. -/
theorem mapSet_keys {α : Type} (m : List (String × α)) (k : String) (v : α) :
    (mapSet m k v).map Prod.fst =
      if m.any (fun p => p.1 = k) then m.map Prod.fst
      else m.map Prod.fst ++ [k] := by
  unfold mapSet
  by_cases hk : m.any (fun p => p.1 = k)
  · simp only [if_pos hk, List.map_map]
    refine List.map_congr_left ?_
    intro p _
    by_cases hpk : p.1 = k
    · simp [hpk]
    · simp [if_neg hpk]
  · simp [if_neg hk]

/-- Lemma: `mapHas` holds exactly when some entry carries the key. -/
theorem mapHas_iff {α : Type} {m : List (String × α)} {k : String} :
    mapHas m k = true ↔ ∃ p ∈ m, p.1 = k := by
  simp [mapHas, List.any_eq_true]

/-- Lemma: `mapHas` after `mapSet`. -/
theorem mapHas_mapSet_iff {α : Type} {m : List (String × α)} {k k' : String}
    {v : α} :
    mapHas (mapSet m k v) k' = true ↔ (mapHas m k' = true ∨ k = k') := by
  constructor
  · intro h
    obtain ⟨p, hp, hpk⟩ := mapHas_iff.mp h
    rcases mapSet_mem hp with heq | hmem
    · exact Or.inr (by rw [heq] at hpk; exact hpk)
    · exact Or.inl (mapHas_iff.mpr ⟨p, hmem, hpk⟩)
  · intro h
    rcases h with h | h
    · obtain ⟨p, hp, hpk⟩ := mapHas_iff.mp h
      by_cases hne : p.1 = k
      · exact mapHas_iff.mpr ⟨(k, v), mapSet_mem_self m k v, hne ▸ hpk⟩
      · exact mapHas_iff.mpr ⟨p, mapSet_mem_of_ne hp hne, hpk⟩
    · exact mapHas_iff.mpr ⟨(k, v), mapSet_mem_self m k v, h⟩

/-- Every entry of the built map is keyed by its value, with the value drawn
from the inserted list (or inherited from the initial map). -/
theorem jsMapAux_mem {α : Type} {key : α → String} {m : List (String × α)}
    {l : List α} {p : String × α} (h : p ∈ jsMapAux key m l) :
    (p.1 = key p.2 ∧ p.2 ∈ l) ∨ p ∈ m := by
  induction l generalizing m with
  | nil => exact Or.inr h
  | cons x rest ih =>
    rcases ih h with ⟨hk, hmem⟩ | hmem
    · exact Or.inl ⟨hk, List.mem_cons_of_mem _ hmem⟩
    · rcases mapSet_mem hmem with heq | hmem'
      · subst heq
        exact Or.inl ⟨rfl, List.mem_cons_self _ _⟩
      · exact Or.inr hmem'

/-- Every entry of `jsMap key l` is `(key v, v)` for some `v ∈ l`. -/
theorem jsMap_mem {α : Type} {key : α → String} {l : List α}
    {p : String × α} (h : p ∈ jsMap key l) : p.1 = key p.2 ∧ p.2 ∈ l := by
  rcases jsMapAux_mem h with h' | h'
  · exact h'
  · simp at h'

/-- The built map has a key exactly when some inserted element (or initial
entry) carries it. -/
theorem mapHas_jsMapAux_iff {α : Type} {key : α → String}
    {m : List (String × α)} {l : List α} {k : String} :
    mapHas (jsMapAux key m l) k = true ↔
      (mapHas m k = true ∨ ∃ x ∈ l, key x = k) := by
  induction l generalizing m with
  | nil => simp [jsMapAux]
  | cons x rest ih =>
    simp only [jsMapAux]
    rw [ih]
    rw [mapHas_mapSet_iff]
    constructor
    · rintro ((h | h) | ⟨y, hy, hky⟩)
      · exact Or.inl h
      · exact Or.inr ⟨x, List.mem_cons_self _ _, h⟩
      · exact Or.inr ⟨y, List.mem_cons_of_mem _ hy, hky⟩
    · rintro (h | ⟨y, hy, hky⟩)
      · exact Or.inl (Or.inl h)
      · rcases List.mem_cons.mp hy with heq | hy'
        · exact Or.inl (Or.inr (heq ▸ hky))
        · exact Or.inr ⟨y, hy', hky⟩

/-- Lemma: `jsMap key l` has key `k` exactly when some `x ∈ l` has `key x = k`. -/
theorem mapHas_jsMap_iff {α : Type} {key : α → String} {l : List α}
    {k : String} :
    mapHas (jsMap key l) k = true ↔ ∃ x ∈ l, key x = k := by
  rw [jsMap, mapHas_jsMapAux_iff]
  simp [mapHas]

/-- The built map's keys are pairwise distinct. -/
theorem jsMapAux_keys_nodup {α : Type} (key : α → String)
    (m : List (String × α)) (l : List α)
    (hm : (m.map Prod.fst).Nodup) :
    ((jsMapAux key m l).map Prod.fst).Nodup := by
  induction l generalizing m with
  | nil => exact hm
  | cons x rest ih =>
    refine ih _ ?_
    rw [mapSet_keys]
    by_cases hk : m.any (fun p => p.1 = key x)
    · rwa [if_pos hk]
    · rw [if_neg hk]
      refine List.Nodup.append hm (List.nodup_singleton _) ?_
      intro a ha hb
      rw [List.mem_singleton] at hb
      subst hb
      obtain ⟨p, hp, hpk⟩ := List.mem_map.mp ha
      rw [List.any_eq_true] at hk
      exact hk ⟨p, hp, by simp [hpk]⟩

/-- The entries of `jsMap key l` are pairwise distinct. -/
theorem jsMap_nodup {α : Type} (key : α → String) (l : List α) :
    (jsMap key l).Nodup :=
  (jsMapAux_keys_nodup key [] l (by simp)).of_map Prod.fst

/-- An entry survives later insertions whose elements can only rewrite it to
itself. -/
theorem jsMapAux_mem_preserve {α : Type} {key : α → String}
    {m : List (String × α)} {l : List α} {k₀ : String} {v₀ : α}
    (hmem : (k₀, v₀) ∈ m) (hpres : ∀ y ∈ l, key y = k₀ → y = v₀) :
    (k₀, v₀) ∈ jsMapAux key m l := by
  induction l generalizing m with
  | nil => exact hmem
  | cons x rest ih =>
    refine ih ?_ (fun y hy => hpres y (List.mem_cons_of_mem _ hy))
    by_cases hk : key x = k₀
    · have := hpres x (List.mem_cons_self _ _) hk
      subst this
      exact hk ▸ mapSet_mem_self m (key x) x
    · exact mapSet_mem_of_ne hmem (by simpa using fun h => hk h.symm)

/-- If `x` is the only element of `l` carrying its key, then `(key x, x)` is
an entry of any map after inserting `l`. -/
theorem jsMapAux_mem_of_uniq {α : Type} {key : α → String} {x : α} :
    ∀ (l : List α) (m : List (String × α)), x ∈ l →
      (∀ y ∈ l, key y = key x → y = x) → (key x, x) ∈ jsMapAux key m l
  | [], _, hx, _ => by simp at hx
  | z :: rest, m, hx, huniq => by
    simp only [jsMapAux]
    rcases List.mem_cons.mp hx with heq | hx' <;>
      [skip; exact jsMapAux_mem_of_uniq rest _ hx'
        (fun y hy => huniq y (List.mem_cons_of_mem _ hy))]
    subst heq
    exact jsMapAux_mem_preserve (mapSet_mem_self m (key x) x)
      (fun y hy hk => huniq y (List.mem_cons_of_mem _ hy) hk)

/-- If `x` is the only element of `l` carrying its key, then `(key x, x)` is
an entry of `jsMap key l`. -/
theorem jsMap_mem_of_uniq {α : Type} {key : α → String} {l : List α}
    {x : α} (hx : x ∈ l) (huniq : ∀ y ∈ l, key y = key x → y = x) :
    (key x, x) ∈ jsMap key l :=
  jsMapAux_mem_of_uniq l [] hx huniq

/-! ## Claim theorems -/

/-- C4: For all graphs A and B, `diffGraphs(A, B).addedNodes` equals
`diffGraphs(B, A).removedNodes`, and `diffGraphs(A, B).addedEdges` equals
`diffGraphs(B, A).removedEdges`.  Both sides filter the map built from B's
collection by absence from the map built from A's collection, so they are the
same list. -/
theorem diff_symmetry (A B : DependencyGraph) :
    (diffGraphs A B).addedNodes = (diffGraphs B A).removedNodes ∧
    (diffGraphs A B).addedEdges = (diffGraphs B A).removedEdges :=
  ⟨rfl, rfl⟩

/-- C10: every node in `diffGraphs(before, after).addedNodes` is an element of
`after.nodes` and every node in `removedNodes` is an element of
`before.nodes`; likewise `addedEdges ⊆ after.edges` and
`removedEdges ⊆ before.edges`.  Added/removed entries are the very records of
the snapshot they came from, so they carry that snapshot's file and line
metadata. -/
theorem diff_entries_from_snapshots (before after : DependencyGraph) :
    (∀ n ∈ (diffGraphs before after).addedNodes, n ∈ after.nodes) ∧
    (∀ n ∈ (diffGraphs before after).removedNodes, n ∈ before.nodes) ∧
    (∀ e ∈ (diffGraphs before after).addedEdges, e ∈ after.edges) ∧
    (∀ e ∈ (diffGraphs before after).removedEdges, e ∈ before.edges) := by
  refine ⟨?_, ?_, ?_, ?_⟩ <;>
    · intro x hx
      simp only [diffGraphs, List.mem_map] at hx
      obtain ⟨p, hp, rfl⟩ := hx
      exact (jsMap_mem (List.mem_of_mem_filter hp)).2

/-- C10 witness: a concrete added node is drawn from the after snapshot. -/
theorem diff_entries_from_snapshots_witness :
    ({ name := "B", kind := .class', file := "b.ts", line := 1 } : GraphNode) ∈
      (diffGraphs
        { nodes := [], edges := [], scannedAt := "t", commitSha := none }
        { nodes := [{ name := "B", kind := .class', file := "b.ts", line := 1 }],
          edges := [], scannedAt := "t", commitSha := none }).addedNodes ∧
    ({ name := "B", kind := .class', file := "b.ts", line := 1 } : GraphNode) ∈
      ([{ name := "B", kind := .class', file := "b.ts", line := 1 }] :
        List GraphNode) :=
  ⟨by decide,
    (diff_entries_from_snapshots
      { nodes := [], edges := [], scannedAt := "t", commitSha := none }
      { nodes := [{ name := "B", kind := .class', file := "b.ts", line := 1 }],
        edges := [], scannedAt := "t", commitSha := none }).1
      { name := "B", kind := .class', file := "b.ts", line := 1 } (by decide)⟩

/-- C2: graph assembly deduplicates nodes by `name` alone (a later node with
the same name but a different kind is discarded), while the diff engine keys
nodes by `(name, kind)` via `nodeKey`, so a same-named class/interface pair is
one node to the assembler but two distinct identities to the differ. -/
theorem assembly_diff_identity_mismatch :
    (∀ n₁ n₂ : GraphNode, n₁.name = n₂.name → dedupeNodes [] [n₁, n₂] = [n₁]) ∧
    (∃ n₁ n₂ : GraphNode, n₁.name = n₂.name ∧ nodeKey n₁ ≠ nodeKey n₂) ∧
    (diffGraphs
        { nodes := [{ name := "A", kind := .class', file := "f1", line := 1 }],
          edges := [], scannedAt := "t", commitSha := none }
        { nodes := [{ name := "A", kind := .interface, file := "f2", line := 2 }],
          edges := [], scannedAt := "t", commitSha := none } =
      { addedNodes := [{ name := "A", kind := .interface, file := "f2", line := 2 }],
        removedNodes := [{ name := "A", kind := .class', file := "f1", line := 1 }],
        addedEdges := [], removedEdges := [] }) := by
  refine ⟨?_, ?_, ?_⟩
  · intro n₁ n₂ h
    simp [dedupeNodes, h]
  · exact ⟨{ name := "A", kind := .class', file := "f", line := 1 },
      { name := "A", kind := .interface, file := "f", line := 1 },
      rfl, by decide⟩
  · decide

/-- C2 witness: a same-named class/interface pair collapses to the first node
in assembly. -/
theorem assembly_diff_identity_mismatch_witness :
    dedupeNodes []
      [{ name := "A", kind := .class', file := "f1", line := 1 },
       { name := "A", kind := .interface, file := "f2", line := 2 }] =
      [{ name := "A", kind := .class', file := "f1", line := 1 }] :=
  assembly_diff_identity_mismatch.1
    { name := "A", kind := .class', file := "f1", line := 1 }
    { name := "A", kind := .interface, file := "f2", line := 2 } rfl

/-- C5 counterexample: the claim says two assembly runs on the same node
list, edge list, and revision id produce the same `DependencyGraph` with no
hidden state consulted; but `filterAndDedupe` stamps
`scannedAt: new Date().toISOString()`, so two runs at different clock
readings differ (and with no revision id, `commitSha` is read from git). -/
theorem assembly_purity_counterexample :
    filterAndDedupe [] [] none
        { now := "2026-01-01T00:00:00.000Z", gitSha := none } ≠
      filterAndDedupe [] [] none
        { now := "2026-01-01T00:00:01.000Z", gitSha := none } := by
  decide

/-- C5 (amended): the nodes and edges of an assembled graph are a pure
function of the fragment input alone, and a supplied revision id is stamped
unchanged; but `scannedAt` comes from the ambient clock and, when no revision
id is supplied, `commitSha` comes from the ambient git state, so whole-graph
equality of two runs additionally requires equal ambient readings. -/
theorem assembly_purity_amended (allNodes : List GraphNode)
    (allEdges : List GraphEdge) (sha : Option String) (env₁ env₂ : ScanEnv) :
    (filterAndDedupe allNodes allEdges sha env₁).nodes =
      (filterAndDedupe allNodes allEdges sha env₂).nodes ∧
    (filterAndDedupe allNodes allEdges sha env₁).edges =
      (filterAndDedupe allNodes allEdges sha env₂).edges ∧
    (∀ s, (filterAndDedupe allNodes allEdges (some s) env₁).commitSha = some s) ∧
    (filterAndDedupe allNodes allEdges sha env₁).scannedAt = env₁.now ∧
    (env₁ = env₂ →
      filterAndDedupe allNodes allEdges sha env₁ =
        filterAndDedupe allNodes allEdges sha env₂) := by
  refine ⟨rfl, rfl, fun s => rfl, rfl, fun h => by rw [h]⟩

/-- C5 witness: the amended purity statement at a concrete input. -/
theorem assembly_purity_amended_witness :
    (filterAndDedupe [] [] (some "abc")
        { now := "t1", gitSha := none }).commitSha = some "abc" ∧
    filterAndDedupe [] [] (some "abc") { now := "t1", gitSha := none } =
      filterAndDedupe [] [] (some "abc") { now := "t1", gitSha := none } :=
  ⟨(assembly_purity_amended [] [] (some "abc")
      { now := "t1", gitSha := none } { now := "t1", gitSha := none }).2.2.1 "abc",
    (assembly_purity_amended [] [] (some "abc")
      { now := "t1", gitSha := none } { now := "t1", gitSha := none }).2.2.2.2 rfl⟩

/-- C3: for all fragment inputs, the assembled graph never contains two nodes
with the same identity key (assembly keys nodes by `name`, so surviving names
are pairwise distinct — which also makes the `(name, kind)` keys distinct)
and never contains two edges with the same `(from, to, kind)` triple, with
ties resolved first-occurrence-wins in input order. -/
theorem assembly_dedup_invariant (allNodes : List GraphNode)
    (allEdges : List GraphEdge) (sha : Option String) (env : ScanEnv) :
    (filterAndDedupe allNodes allEdges sha env).nodes.Pairwise
      (fun a b => a.name ≠ b.name) ∧
    (filterAndDedupe allNodes allEdges sha env).edges.Pairwise
      (fun a b => ¬ (a.from' = b.from' ∧ a.to' = b.to' ∧ a.kind = b.kind)) ∧
    (∀ n ∈ (filterAndDedupe allNodes allEdges sha env).nodes,
      ∃ l₁ l₂, allNodes = l₁ ++ n :: l₂ ∧ ∀ m ∈ l₁, m.name ≠ n.name) ∧
    (∀ e ∈ (filterAndDedupe allNodes allEdges sha env).edges, e ∈ allEdges) := by
  refine ⟨?_, ?_, ?_, ?_⟩
  · have h := (List.pairwise_map.mp (dedupeNodes_names_nodup [] allNodes) :
      (dedupeNodes [] allNodes).Pairwise (fun a b => a.name ≠ b.name))
    simpa only [filterAndDedupe] using h
  · have h := (List.pairwise_map.mp (filterEdges_keys_nodup
      ((dedupeNodes [] allNodes).map (·.name)) [] allEdges))
    simp only [filterAndDedupe]
    refine h.imp ?_
    intro a b hk ⟨hf, ht, hkind⟩
    exact hk (by unfold edgeKey; rw [hf, ht, hkind])
  · intro n hn
    simp only [filterAndDedupe] at hn
    exact dedupeNodes_first_occurrence hn
  · intro e he
    simp only [filterAndDedupe] at he
    exact (mem_filterEdges he).1

/-- C3 witness: the invariant at a concrete duplicated input. -/
theorem assembly_dedup_invariant_witness :
    ∃ l₁ l₂, [{ name := "A", kind := .class', file := "f1", line := 1 },
              { name := "A", kind := .class', file := "f2", line := 2 }] =
        l₁ ++ ({ name := "A", kind := .class', file := "f1", line := 1 } :
          GraphNode) :: l₂ ∧
      ∀ m ∈ l₁, m.name ≠ "A" :=
  (assembly_dedup_invariant
      [{ name := "A", kind := .class', file := "f1", line := 1 },
       { name := "A", kind := .class', file := "f2", line := 2 }]
      [] none { now := "t", gitSha := none }).2.2.1
    { name := "A", kind := .class', file := "f1", line := 1 } (by decide)

/-- C1 counterexample: with type names containing the key separator `->`,
two distinct valid edges collide on `edgeKey` ("a->b" → "c" and "a" → "b->c"
both key as `a->b->c:extends`), so the second valid edge is dropped: edge
retention is not equivalent to endpoint validity plus `from != to`. -/
theorem edge_validity_counterexample :
    (filterAndDedupe
        [{ name := "a", kind := .class', file := "f", line := 1 },
         { name := "a->b", kind := .class', file := "f", line := 2 },
         { name := "c", kind := .class', file := "f", line := 3 },
         { name := "b->c", kind := .class', file := "f", line := 4 }]
        [{ from' := "a->b", to' := "c", kind := .extends' },
         { from' := "a", to' := "b->c", kind := .extends' }]
        none { now := "t0", gitSha := none }).edges =
      [{ from' := "a->b", to' := "c", kind := .extends' }] ∧
    (∃ n ∈ (filterAndDedupe
        [{ name := "a", kind := .class', file := "f", line := 1 },
         { name := "a->b", kind := .class', file := "f", line := 2 },
         { name := "c", kind := .class', file := "f", line := 3 },
         { name := "b->c", kind := .class', file := "f", line := 4 }]
        [{ from' := "a->b", to' := "c", kind := .extends' },
         { from' := "a", to' := "b->c", kind := .extends' }]
        none { now := "t0", gitSha := none }).nodes, n.name = "a") ∧
    (∃ n ∈ (filterAndDedupe
        [{ name := "a", kind := .class', file := "f", line := 1 },
         { name := "a->b", kind := .class', file := "f", line := 2 },
         { name := "c", kind := .class', file := "f", line := 3 },
         { name := "b->c", kind := .class', file := "f", line := 4 }]
        [{ from' := "a->b", to' := "c", kind := .extends' },
         { from' := "a", to' := "b->c", kind := .extends' }]
        none { now := "t0", gitSha := none }).nodes, n.name = "b->c") ∧
    ({ from' := "a", to' := "b->c", kind := .extends' } : GraphEdge) ∉
      (filterAndDedupe
        [{ name := "a", kind := .class', file := "f", line := 1 },
         { name := "a->b", kind := .class', file := "f", line := 2 },
         { name := "c", kind := .class', file := "f", line := 3 },
         { name := "b->c", kind := .class', file := "f", line := 4 }]
        [{ from' := "a->b", to' := "c", kind := .extends' },
         { from' := "a", to' := "b->c", kind := .extends' }]
        none { now := "t0", gitSha := none }).edges := by
  decide

/-- C1 (amended): every edge retained in an assembled graph has both
endpoints matching some node's name in the same graph and `from != to`;
and, provided `edgeKey` is injective on the input edges (as it is whenever
type names avoid the separator substrings `->` and `:`), an edge is retained
if and only if it occurs in the input, both endpoints match node names, and
`from != to`. -/
theorem edge_validity_amended (allNodes : List GraphNode)
    (allEdges : List GraphEdge) (sha : Option String) (env : ScanEnv) :
    (∀ e ∈ (filterAndDedupe allNodes allEdges sha env).edges,
      (∃ n ∈ (filterAndDedupe allNodes allEdges sha env).nodes,
        n.name = e.from') ∧
      (∃ m ∈ (filterAndDedupe allNodes allEdges sha env).nodes,
        m.name = e.to') ∧
      e.from' ≠ e.to') ∧
    ((∀ e₁ ∈ allEdges, ∀ e₂ ∈ allEdges, edgeKey e₁ = edgeKey e₂ → e₁ = e₂) →
      ∀ e, e ∈ (filterAndDedupe allNodes allEdges sha env).edges ↔
        (e ∈ allEdges ∧
          (∃ n ∈ (filterAndDedupe allNodes allEdges sha env).nodes,
            n.name = e.from') ∧
          (∃ m ∈ (filterAndDedupe allNodes allEdges sha env).nodes,
            m.name = e.to') ∧
          e.from' ≠ e.to')) := by
  constructor
  · intro e he
    simp only [filterAndDedupe] at he ⊢
    obtain ⟨-, hf, ht, hne, -⟩ := mem_filterEdges he
    obtain ⟨n, hn, hnname⟩ := List.mem_map.mp hf
    obtain ⟨m, hm, hmname⟩ := List.mem_map.mp ht
    exact ⟨⟨n, hn, hnname⟩, ⟨m, hm, hmname⟩, hne⟩
  · intro hinj e
    constructor
    · intro he
      simp only [filterAndDedupe] at he ⊢
      obtain ⟨hmem, hf, ht, hne, -⟩ := mem_filterEdges he
      obtain ⟨n, hn, hnname⟩ := List.mem_map.mp hf
      obtain ⟨m, hm, hmname⟩ := List.mem_map.mp ht
      exact ⟨hmem, ⟨n, hn, hnname⟩, ⟨m, hm, hmname⟩, hne⟩
    · rintro ⟨hmem, ⟨n, hn, hnname⟩, ⟨m, hm, hmname⟩, hne⟩
      simp only [filterAndDedupe] at hn hm ⊢
      exact filterEdges_complete hmem
        (List.mem_map.mpr ⟨n, hn, hnname⟩)
        (List.mem_map.mpr ⟨m, hm, hmname⟩)
        hne (by simp) (fun x hx => hinj x hx e hmem)

/-- C1 witness: the amended equivalence at a concrete collision-free input,
retaining the declared edge and yielding its resolving endpoints. -/
theorem edge_validity_amended_witness :
    ({ from' := "Dog", to' := "Animal", kind := .extends' } : GraphEdge) ∈
      (filterAndDedupe
        [{ name := "Dog", kind := .class', file := "f", line := 2 },
         { name := "Animal", kind := .class', file := "f", line := 1 }]
        [{ from' := "Dog", to' := "Animal", kind := .extends' }]
        none { now := "t", gitSha := none }).edges :=
  ((edge_validity_amended
      [{ name := "Dog", kind := .class', file := "f", line := 2 },
       { name := "Animal", kind := .class', file := "f", line := 1 }]
      [{ from' := "Dog", to' := "Animal", kind := .extends' }]
      none { now := "t", gitSha := none }).2
    (by decide) { from' := "Dog", to' := "Animal", kind := .extends' }).mpr
    (by decide)

/-- One node's JSON document reads back as the node itself. -/
theorem nodeFromJson_nodeToJson (n : GraphNode) :
    nodeFromJson (nodeToJson n) = some n := by
  cases n with
  | mk name kind file line =>
    cases kind <;>
      simp [nodeToJson, nodeFromJson, jsonGet, NodeKind.ofStr, NodeKind.str]

/-- One edge's JSON document reads back as the edge itself. -/
theorem edgeFromJson_edgeToJson (e : GraphEdge) :
    edgeFromJson (edgeToJson e) = some e := by
  cases e with
  | mk f t kind =>
    cases kind <;>
      simp [edgeToJson, edgeFromJson, jsonGet, EdgeKind.ofStr, EdgeKind.str]

/-- Mapping a faithful reader over rendered documents recovers the list
(stated on the accumulator loop `List.mapM` compiles to). -/
theorem mapM_loop_roundTrip {α β : Type} (f : α → β) (g : β → Option α)
    (h : ∀ a, g (f a) = some a) :
    ∀ (l : List α) (acc : List α),
      List.mapM.loop g (l.map f) acc = some (acc.reverse ++ l)
  | [], acc => by simp [List.mapM.loop]
  | x :: rest, acc => by
    simp [List.mapM.loop, h x, mapM_loop_roundTrip f g h rest (x :: acc)]

/-- C6: for every `DependencyGraph` g,
`deserializeGraph(serializeGraph(g))` equals g — at the level of the JSON
document `JSON.stringify` renders and `JSON.parse` recovers (an `undefined`
`commitSha` is omitted on the way out and reads back as `undefined`). -/
theorem serialize_round_trip (g : DependencyGraph) :
    deserializeGraph (serializeGraph g) = some g := by
  cases g with
  | mk nodes edges scannedAt commitSha =>
    cases commitSha <;>
      · simp only [serializeGraph, deserializeGraph, jsonGet, List.find?]
        simp [mapM_loop_roundTrip nodeToJson nodeFromJson nodeFromJson_nodeToJson,
          mapM_loop_roundTrip edgeToJson edgeFromJson edgeFromJson_edgeToJson]

/-- If `x` is the unique carrier of its key in `l₁` and no element of `l₂`
carries that key, then the filtered-values list `diffGraphs` builds from
`l₁` against `l₂` contains `x` exactly once. -/
theorem jsMap_filter_count_one {α : Type} [DecidableEq α] (key : α → String)
    (l₁ l₂ : List α) (x : α) (hx : x ∈ l₁)
    (hu : ∀ y ∈ l₁, key y = key x → y = x)
    (habs : ∀ y ∈ l₂, key y ≠ key x) :
    (((jsMap key l₁).filter
        (fun p => ! mapHas (jsMap key l₂) p.1)).map (·.2)).count x = 1 := by
  apply List.count_eq_one_of_mem
  · refine List.Nodup.map_on ?_ ((jsMap_nodup key l₁).filter _)
    intro p hp q hq hpq
    have hp' := jsMap_mem (List.mem_of_mem_filter hp)
    have hq' := jsMap_mem (List.mem_of_mem_filter hq)
    have h1 : p.1 = q.1 := by rw [hp'.1, hq'.1, hpq]
    exact Prod.ext h1 hpq
  · refine List.mem_map.mpr ⟨(key x, x), ?_, rfl⟩
    refine List.mem_filter.mpr ⟨jsMap_mem_of_uniq hx hu, ?_⟩
    have hfalse : mapHas (jsMap key l₂) (key x) = false := by
      by_cases h : mapHas (jsMap key l₂) (key x) = true
      · obtain ⟨y, hy, hky⟩ := mapHas_jsMap_iff.mp h
        exact absurd hky (habs y hy)
      · simpa using h
    simp [hfalse]

/-- C7: when the before graph has an edge `(from, to)` of one kind and the
after graph has an edge with the same `(from, to)` pair but a different kind
(the old kind's key gone from after, the new kind's key absent from before,
and each key carried by a single record in its own snapshot), `diffGraphs`
reports the old edge exactly once in `removedEdges` and the new edge exactly
once in `addedEdges`.  There is no merged "changed" representation:
`GraphDiff` has only the four added/removed collections. -/
theorem diff_kind_change_add_remove (before after : DependencyGraph)
    (e₁ e₂ : GraphEdge)
    (h1 : e₁ ∈ before.edges) (h2 : e₂ ∈ after.edges)
    (hfrom : e₁.from' = e₂.from') (hto : e₁.to' = e₂.to')
    (hkind : e₁.kind ≠ e₂.kind)
    (hu1 : ∀ e ∈ before.edges, edgeKey e = edgeKey e₁ → e = e₁)
    (hu2 : ∀ e ∈ after.edges, edgeKey e = edgeKey e₂ → e = e₂)
    (hgone : ∀ e ∈ after.edges, edgeKey e ≠ edgeKey e₁)
    (hnew : ∀ e ∈ before.edges, edgeKey e ≠ edgeKey e₂) :
    (diffGraphs before after).removedEdges.count e₁ = 1 ∧
    (diffGraphs before after).addedEdges.count e₂ = 1 := by
  constructor
  · simpa only [diffGraphs] using
      jsMap_filter_count_one edgeKey before.edges after.edges e₁ h1 hu1 hgone
  · simpa only [diffGraphs] using
      jsMap_filter_count_one edgeKey after.edges before.edges e₂ h2 hu2 hnew

/-- C7 witness: an `extends` → `field_type` kind change on the pair (A, B)
is reported as one removal of the `extends` edge and one addition of the
`field_type` edge. -/
theorem diff_kind_change_add_remove_witness :
    (diffGraphs
        { nodes := [], edges := [{ from' := "A", to' := "B", kind := .extends' }],
          scannedAt := "t", commitSha := none }
        { nodes := [], edges := [{ from' := "A", to' := "B", kind := .field_type }],
          scannedAt := "t", commitSha := none }).removedEdges.count
      { from' := "A", to' := "B", kind := .extends' } = 1 ∧
    (diffGraphs
        { nodes := [], edges := [{ from' := "A", to' := "B", kind := .extends' }],
          scannedAt := "t", commitSha := none }
        { nodes := [], edges := [{ from' := "A", to' := "B", kind := .field_type }],
          scannedAt := "t", commitSha := none }).addedEdges.count
      { from' := "A", to' := "B", kind := .field_type } = 1 :=
  diff_kind_change_add_remove
    { nodes := [], edges := [{ from' := "A", to' := "B", kind := .extends' }],
      scannedAt := "t", commitSha := none }
    { nodes := [], edges := [{ from' := "A", to' := "B", kind := .field_type }],
      scannedAt := "t", commitSha := none }
    { from' := "A", to' := "B", kind := .extends' }
    { from' := "A", to' := "B", kind := .field_type }
    (by decide) (by decide) rfl rfl (by decide)
    (by decide) (by decide) (by decide) (by decide)

/-- The scan accumulator distributes over concatenation of the file list. -/
theorem scanAccum_append (l₁ l₂ : List ScanFile) :
    scanAccum (l₁ ++ l₂) =
      ((scanAccum l₁).1 ++ (scanAccum l₂).1,
       (scanAccum l₁).2.1 ++ (scanAccum l₂).2.1,
       (scanAccum l₁).2.2 ++ (scanAccum l₂).2.2) := by
  induction l₁ with
  | nil => simp [scanAccum]
  | cons f rest ih =>
    obtain ⟨path, hasParser, result⟩ := f
    cases hasParser with
    | false => simpa [scanAccum] using ih
    | true =>
      cases result with
      | ok pr =>
        obtain ⟨ns, es⟩ := pr
        simp [scanAccum, ih]
      | error err => simp [scanAccum, ih]

/-- C9: a file whose read-or-parse step fails contributes zero nodes and zero
edges — the scanned graph equals the graph of the same run without that
file — while a warning naming exactly that file is logged in place, and every
file before and after it is still processed (their contributions and warnings
are unchanged). -/
theorem scan_failure_isolated (files₁ : List ScanFile) (path err : String)
    (files₂ : List ScanFile) (env : ScanEnv) :
    (scanDirectory
        (files₁ ++
          { path := path, hasParser := true, result := .error err } ::
            files₂) env).1 =
      (scanDirectory (files₁ ++ files₂) env).1 ∧
    (scanDirectory
        (files₁ ++
          { path := path, hasParser := true, result := .error err } ::
            files₂) env).2 =
      (scanAccum files₁).2.2 ++
        parseWarning path err :: (scanAccum files₂).2.2 := by
  have hbad :
      scanAccum
        [({ path := path, hasParser := true, result := .error err } :
          ScanFile)] =
        ([], [], [parseWarning path err]) := by
    simp [scanAccum]
  have hsplit :
      ({ path := path, hasParser := true, result := .error err } :
          ScanFile) :: files₂ =
        [({ path := path, hasParser := true, result := .error err } :
          ScanFile)] ++ files₂ := rfl
  constructor
  · simp only [scanDirectory, hsplit, scanAccum_append, hbad]
    simp
  · simp only [scanDirectory, hsplit, scanAccum_append, hbad]
    simp

/-! ## Helper lemmas about the Go extractor's built-in filter -/

/-- Edges built by the guarded push loop target user types only. -/
theorem goUserTypeEdges_isUserType {owner : String} {k : EdgeKind}
    {ids : List String} {e : GraphEdge} (h : e ∈ goUserTypeEdges owner k ids) :
    isUserType e.to' = true := by
  simp only [goUserTypeEdges, List.mem_map, List.mem_filter] at h
  obtain ⟨id, ⟨-, hid⟩, rfl⟩ := h
  exact hid

/-- Method edges target user types only. -/
theorem goExtractMethodEdges_isUserType {method : TSNode} {owner : String}
    {e : GraphEdge} (h : e ∈ goExtractMethodEdges method owner) :
    isUserType e.to' = true := by
  simp only [goExtractMethodEdges, List.mem_append] at h
  rcases h with h | h
  · rcases hm : method.childForFieldName "parameters" with _ | params
    · rw [hm] at h
      simp at h
    · rw [hm] at h
      simp only [List.mem_flatMap] at h
      obtain ⟨param, -, h⟩ := h
      by_cases hk : (param.kind == "parameter_declaration") = true
      · rw [if_pos hk] at h
        rcases hpt : param.childForFieldName "type" with _ | paramType
        · rw [hpt] at h
          simp at h
        · rw [hpt] at h
          exact goUserTypeEdges_isUserType h
      · rw [if_neg hk] at h
        simp at h
  · rcases hm : method.childForFieldName "result" with _ | result
    · rw [hm] at h
      simp at h
    · rw [hm] at h
      exact goUserTypeEdges_isUserType h

/-- Struct field edges target user types only. -/
theorem goStructFieldEdges_isUserType {nameText : String} {field : TSNode}
    {e : GraphEdge} (h : e ∈ goStructFieldEdges nameText field) :
    isUserType e.to' = true := by
  unfold goStructFieldEdges at h
  split at h
  · split at h
    · -- no name, a type: embedded type, guarded by `isUserType`
      split at h
      · split at h
        · rename_i hu
          rw [List.mem_singleton] at h
          subst h
          exact hu
        · simp at h
      · simp at h
    · -- no name, no type: embedded pointer loop, guarded by `isUserType`
      simp only [List.mem_filterMap] at h
      obtain ⟨c, -, hc⟩ := h
      split at hc
      · rename_i hg
        simp only [Bool.and_eq_true] at hg
        cases hc
        exact hg.2
      · exact absurd hc (by simp)
    · -- named field: the guarded push loop
      exact goUserTypeEdges_isUserType h
    · -- a name, no type: contributes nothing
      simp at h
  · simp at h

/-- Struct edges target user types only. -/
theorem goExtractStruct_isUserType {nameText : String} {typeNode : TSNode}
    {filePath : String} {startRow : Nat} {e : GraphEdge}
    (h : e ∈ (goExtractStruct nameText typeNode filePath startRow).2) :
    isUserType e.to' = true := by
  unfold goExtractStruct at h
  simp only at h
  split at h
  · simp at h
  · simp only [List.mem_flatMap] at h
    obtain ⟨field, -, h⟩ := h
    exact goStructFieldEdges_isUserType h

/-- Interface child edges target user types only. -/
theorem goInterfaceChildEdges_isUserType {nameText : String} {child : TSNode}
    {e : GraphEdge} (h : e ∈ goInterfaceChildEdges nameText child) :
    isUserType e.to' = true := by
  unfold goInterfaceChildEdges at h
  rw [List.mem_append] at h
  rcases h with h | h
  · split at h
    · simp only [List.mem_filterMap] at h
      obtain ⟨c, -, hc⟩ := h
      split at hc
      · rename_i hg
        simp only [Bool.and_eq_true] at hg
        cases hc
        exact hg.2
      · exact absurd hc (by simp)
    · simp at h
  · split at h
    · exact goExtractMethodEdges_isUserType h
    · simp at h

/-- Interface edges target user types only. -/
theorem goExtractInterface_isUserType {nameText : String} {typeNode : TSNode}
    {filePath : String} {startRow : Nat} {e : GraphEdge}
    (h : e ∈ (goExtractInterface nameText typeNode filePath startRow).2) :
    isUserType e.to' = true := by
  unfold goExtractInterface at h
  simp only [List.mem_flatMap] at h
  obtain ⟨child, -, h⟩ := h
  exact goInterfaceChildEdges_isUserType h

/-- Type-spec edges target user types only. -/
theorem goTypeSpecResult_isUserType {filePath : String} {spec : TSNode}
    {e : GraphEdge} (h : e ∈ (goTypeSpecResult filePath spec).2) :
    isUserType e.to' = true := by
  unfold goTypeSpecResult at h
  split at h
  · split at h
    · split at h
      · exact goExtractStruct_isUserType h
      · split at h
        · exact goExtractInterface_isUserType h
        · simp at h
    · simp at h
  · simp at h

/-- Top-level edges target user types only. -/
theorem goTopLevelResult_isUserType {filePath : String} {child : TSNode}
    {e : GraphEdge} (h : e ∈ (goTopLevelResult filePath child).2) :
    isUserType e.to' = true := by
  unfold goTopLevelResult at h
  split at h
  · simp only [List.mem_flatMap, List.mem_map] at h
    obtain ⟨es, ⟨spec, -, hspec⟩, h⟩ := h
    subst hspec
    exact goTypeSpecResult_isUserType h
  · split at h
    · split at h
      · exact goExtractMethodEdges_isUserType h
      · simp at h
    · simp at h

/-- C8 counterexample: the Swift extractor applies no built-in allow-list —
on the syntax tree of `class Foo { var x: Int }` it emits a `field_type` edge
whose target is `Int`, Swift's built-in integer type.  So it is not the case
that every language extractor ignores built-in primitive types via an
explicit per-language allow-list. -/
theorem extractor_builtin_allowlist_counterexample :
    (swiftParseSource
      (.mk "source_file" "" true 0 none
        [.mk "class_declaration" "class Foo { var x: Int }" true 0 none
          [.mk "simple_identifier" "Foo" true 0 (some "name") [],
           .mk "class_body" "{ var x: Int }" true 0 (some "body")
             [.mk "property_declaration" "var x: Int" true 0 none
               [.mk "user_type" "Int" true 0 (some "type")
                 [.mk "type_identifier" "Int" true 0 none []]]]]])
      "a.swift").2 =
      [{ from' := "Foo", to' := "Int", kind := .field_type }] := by
  simp [swiftParseSource, swiftWalk, swiftExtractDeclaration,
    swiftExtractBodyMembers, swiftExtractTypeIdentifiers, TSNode.kind,
    TSNode.children, TSNode.childForFieldName, TSNode.text, TSNode.named,
    TSNode.row, TSNode.field]

/-- C8 (amended): only the Go extractor ignores built-in primitive types via
an explicit allow-list (`BUILTIN_TYPES` / `isUserType`): no edge it emits, on
any input syntax tree, targets a Go built-in.  The Swift extractor applies no
such allow-list and can emit edges targeting Swift built-in primitive types
such as `Int`. -/
theorem extractor_builtin_allowlist_amended :
    (∀ (root : TSNode) (filePath : String) (e : GraphEdge),
      e ∈ (goParseSource root filePath).2 → isUserType e.to' = true) ∧
    (∃ (root : TSNode) (e : GraphEdge),
      e ∈ (swiftParseSource root "a.swift").2 ∧ e.to' = "Int") := by
  constructor
  · intro root filePath e h
    unfold goParseSource at h
    simp only [List.mem_flatMap, List.mem_map] at h
    obtain ⟨es, ⟨child, -, hchild⟩, h⟩ := h
    subst hchild
    exact goTopLevelResult_isUserType h
  · refine ⟨.mk "source_file" "" true 0 none
      [.mk "class_declaration" "class Foo { var x: Int }" true 0 none
        [.mk "simple_identifier" "Foo" true 0 (some "name") [],
         .mk "class_body" "{ var x: Int }" true 0 (some "body")
           [.mk "property_declaration" "var x: Int" true 0 none
             [.mk "user_type" "Int" true 0 (some "type")
               [.mk "type_identifier" "Int" true 0 none []]]]]],
      { from' := "Foo", to' := "Int", kind := .field_type }, ?_, rfl⟩
    simp [swiftParseSource, swiftWalk, swiftExtractDeclaration,
      swiftExtractBodyMembers, swiftExtractTypeIdentifiers, TSNode.kind,
      TSNode.children, TSNode.childForFieldName, TSNode.text, TSNode.named,
      TSNode.row, TSNode.field]

/-- C8 witness: the Go half of the amendment applied to the tree of
`type A struct { B B }` — the emitted field edge targets the user type `B`,
which is outside Go's built-in allow-list. -/
theorem extractor_builtin_allowlist_amended_witness :
    ({ from' := "A", to' := "B", kind := .field_type } : GraphEdge) ∈
      (goParseSource
        (.mk "source_file" "" true 0 none
          [.mk "type_declaration" "type A struct { B B }" true 0 none
            [.mk "type_spec" "A struct { B B }" true 0 none
              [.mk "type_identifier" "A" true 0 (some "name") [],
               .mk "struct_type" "struct { B B }" true 0 (some "type")
                 [.mk "field_declaration_list" "{ B B }" true 0 (some "fields")
                   [.mk "field_declaration" "B B" true 1 none
                     [.mk "field_identifier" "B" true 1 (some "name") [],
                      .mk "type_identifier" "B" true 1 (some "type") []]]]]]])
        "a.go").2 ∧
    isUserType "B" = true :=
  ⟨by
    simp [goParseSource, goTopLevelResult, goTypeSpecResult, goExtractStruct,
      goStructFieldEdges, goUserTypeEdges, goExtractAllTypeIdentifiers,
      goExtractTypeIdentifier, goFindChild, isUserType, BUILTIN_TYPES,
      TSNode.kind, TSNode.children, TSNode.childForFieldName, TSNode.text,
      TSNode.named, TSNode.row, TSNode.field],
    extractor_builtin_allowlist_amended.1
      (.mk "source_file" "" true 0 none
        [.mk "type_declaration" "type A struct { B B }" true 0 none
          [.mk "type_spec" "A struct { B B }" true 0 none
            [.mk "type_identifier" "A" true 0 (some "name") [],
             .mk "struct_type" "struct { B B }" true 0 (some "type")
               [.mk "field_declaration_list" "{ B B }" true 0 (some "fields")
                 [.mk "field_declaration" "B B" true 1 none
                   [.mk "field_identifier" "B" true 1 (some "name") [],
                    .mk "type_identifier" "B" true 1 (some "type") []]]]]]])
      "a.go" { from' := "A", to' := "B", kind := .field_type }
      (by
        simp [goParseSource, goTopLevelResult, goTypeSpecResult,
          goExtractStruct, goStructFieldEdges, goUserTypeEdges,
          goExtractAllTypeIdentifiers, goExtractTypeIdentifier, goFindChild,
          isUserType, BUILTIN_TYPES, TSNode.kind, TSNode.children,
          TSNode.childForFieldName, TSNode.text, TSNode.named, TSNode.row,
          TSNode.field])⟩

end Depgraph
